import Mathlib

/-!
Verification of the reference-matching and suggestion engine of a git
autocompletion plugin (`src/Logic.cpp`, `src/Trie.hpp`).

Strings at the C boundary are NUL-terminated byte strings; we embed them as
`List Char` (all inputs of interest are ASCII).  C string scanning functions
(`strchr`) are embedded directly; the orchestrator's command-line buffer,
dialog and repository collaborators are explicit parameters.
-/

namespace GitAC

/-- A C string without its terminating NUL, embedded as a list of characters. -/
abbrev Str := List Char

/-- `isupper` from `<ctype.h>` in the C locale: ASCII uppercase letters. -/
def isupperC (c : Char) : Bool := 'A' ≤ c && c ≤ 'Z'

/-- `ispunct` from `<ctype.h>` in the C locale: printable ASCII that is neither
alphanumeric nor space, i.e. the code ranges 33–47, 58–64, 91–96, 123–126. -/
def ispunctC (c : Char) : Bool :=
  ('!' ≤ c && c ≤ '/') || (':' ≤ c && c ≤ '@') ||
  ('[' ≤ c && c ≤ '`') || ('{' ≤ c && c ≤ '~')

/-- `strchr(r, c)` for `c ≠ '\0'`, returning the suffix *after* the first
occurrence of `c` (the caller `RefMayBeEncodedByPartialPrefix` always advances
past the found character with `r++`), or `none` when `c` does not occur. -/
def strchrAfter (c : Char) : Str → Option Str
  | [] => none
  | x :: xs => if x = c then some xs else strchrAfter c xs

/-- `RefMayBeEncodedByPartialPrefix` from `src/Logic.cpp` lines 79–99:
walk `pfx` left to right; a punctuation or uppercase character skips the
`ref` cursor ahead to its next occurrence (`strchr` from the current cursor),
any other character must match the `ref` cursor exactly; an exhausted `pfx`
succeeds. -/
def RefMayBeEncodedByPartialPrefix (ref : Str) : Str → Bool
  | [] => true
  | p :: ps =>
    if ispunctC p || isupperC p then
      match strchrAfter p ref with
      | none => false
      | some rest => RefMayBeEncodedByPartialPrefix rest ps
    else
      match ref with
      | [] => false
      | r :: rs => if p = r then RefMayBeEncodedByPartialPrefix rs ps else false

/-- Least index `j ≥ i` such that `ref[j] = c`, the cursor form of
"advance the ref cursor to the next occurrence of the literal character
at or after the current cursor". -/
def findFrom (ref : Str) (i : Nat) (c : Char) : Option Nat :=
  ((ref.drop i).findIdx? (fun x => x = c)).map (fun j => i + j)

/-- The walk of the specification, phrased over an explicit cursor `i` into
`ref`: an exhausted prefix succeeds; a punctuation/uppercase prefix character
moves the cursor to the next occurrence of that literal character at or after
`i` (failing if none), then both cursors step past it; any other prefix
character must equal `ref[i]` exactly. -/
def specPartialWalk (ref : Str) : Str → Nat → Bool
  | [], _ => true
  | p :: ps, i =>
    if ispunctC p || isupperC p then
      match findFrom ref i p with
      | none => false
      | some j => specPartialWalk ref ps (j + 1)
    else
      match ref.get? i with
      | none => false
      | some r => if p = r then specPartialWalk ref ps (i + 1) else false

theorem get?_eq_head?_drop (l : Str) (i : Nat) : l.get? i = (l.drop i).head? := by
  induction l generalizing i with
  | nil => simp
  | cons x xs ih => cases i <;> simp [ih]

theorem strchrAfter_eq (c : Char) (l : Str) :
    strchrAfter c l = (l.findIdx? (fun x => x = c)).map (fun j => l.drop (j + 1)) := by
  induction l with
  | nil => simp [strchrAfter]
  | cons x xs ih =>
    simp only [strchrAfter, List.findIdx?_cons]
    by_cases h : x = c
    · simp [h]
    · simp only [h, if_neg, ih, List.findIdx?_start_succ, Option.map_map,
        decide_eq_false h.elim]
      cases xs.findIdx? (fun x => x = c) <;> simp

theorem strchrAfter_drop (c : Char) (ref : Str) (i : Nat) :
    strchrAfter c (ref.drop i) = (findFrom ref i c).map (fun j => ref.drop (j + 1)) := by
  rw [strchrAfter_eq, findFrom, Option.map_map]
  cases h : (ref.drop i).findIdx? (fun x => x = c) <;> simp [Nat.add_assoc]

theorem specPartialWalk_eq (pfx : Str) : ∀ (ref : Str) (i : Nat),
    specPartialWalk ref pfx i = RefMayBeEncodedByPartialPrefix (ref.drop i) pfx := by
  induction pfx with
  | nil => intro ref i; rfl
  | cons p ps ih =>
    intro ref i
    simp only [specPartialWalk, RefMayBeEncodedByPartialPrefix]
    cases hc : ispunctC p || isupperC p
    · simp only [hc, Bool.false_eq_true, if_neg, not_false_iff,
        get?_eq_head?_drop]
      cases hrd : ref.drop i with
      | nil => simp
      | cons r rs =>
        simp only [List.head?_cons]
        have hdrop : ref.drop (i + 1) = rs := by
          rw [← List.drop_drop, hrd]; rfl
        rw [ih ref (i + 1), hdrop]
    · simp only [hc, if_pos]
      have h := strchrAfter_drop p ref i
      cases hfi : findFrom ref i p with
      | none => rw [hfi] at h; simp at h; rw [h]
      | some j =>
        rw [hfi] at h; simp at h; rw [h]
        exact ih ref (j + 1)

/-- Modelled from the spec: `StartsWith` (declared in `Utils.hpp`, whose
implementation is not among the repository sources) — byte-wise, case-sensitive
"name starts with the given text". -/
def StartsWith (s pfx : Str) : Bool := pfx.isPrefixOf s

/-- Modelled from the spec: `DropPrefix` (declared in `Utils.hpp`, whose
implementation is not among the repository sources) — "return the selected
candidate with `currentPrefix` stripped from its front (candidate is guaranteed
to start with `currentPrefix`)". -/
def DropPrefix (s pfx : Str) : Str :=
  if pfx.isPrefixOf s then s.drop pfx.length else s

def headsPrefix : Str := "refs/heads/".toList

def tagsPrefix : Str := "refs/tags/".toList

def remotesPrefix : Str := "refs/remotes/".toList

/-- `FilterReferences` from `src/Logic.cpp` lines 33–55: the list of ShortNames
handed to `filterOneRef`, in call order.  `none` embeds the fatal
`assert(slashPtr != nullptr)` on a remote-tracking ref without a `/` after the
remote prefix; an unrecognized ref is logged and yields no ShortName. -/
def FilterReferences (stripRemoteName : Bool) (ref : Str) : Option (List Str) :=
  if StartsWith ref headsPrefix then some [ref.drop headsPrefix.length]
  else if StartsWith ref tagsPrefix then some [ref.drop tagsPrefix.length]
  else if StartsWith ref remotesPrefix then
    let remoteRef := ref.drop remotesPrefix.length
    if stripRemoteName then
      match strchrAfter '/' remoteRef with
      | none => none
      | some afterSlash => some [remoteRef, afterSlash]
    else some [remoteRef]
  else some []

/-- The final value of the local `idx` of `ObtainNextSuggestedSuffix`
(`src/Logic.cpp` lines 118–124): `std::find` yields `size` when
`currentPrefix + currentSuffix` is absent; the arithmetic is `size_t`
(no overflow at realizable vector sizes). -/
def nextSuggestedIdx (forwardSearch : Bool)
    (currentPrefix currentSuffix : Str) (suitableRefs : List Str) : Nat :=
  let size := suitableRefs.length
  let idx0 := (suitableRefs.findIdx? (fun s => s = currentPrefix ++ currentSuffix)).getD size
  if idx0 = size then (if forwardSearch then 0 else size - 1)
  else if forwardSearch then (idx0 + 1 + size) % size
  else (idx0 + size - 1) % size

/-- `ObtainNextSuggestedSuffix` from `src/Logic.cpp` lines 117–126: the
candidate at the stepped index, with `currentPrefix` dropped. -/
def ObtainNextSuggestedSuffix (forwardSearch : Bool)
    (currentPrefix currentSuffix : Str) (suitableRefs : List Str) : Str :=
  DropPrefix
    (suitableRefs.getD
      (nextSuggestedIdx forwardSearch currentPrefix currentSuffix suitableRefs) [])
    currentPrefix

/-- Byte-wise lexicographic `≤` on strings, the order of `std::sort` /
`operator<` on `std::string` (ASCII code points coincide with bytes). -/
def lexLe : Str → Str → Bool
  | [], _ => true
  | _ :: _, [] => false
  | a :: as, b :: bs => if a = b then lexLe as bs else decide (a < b)

def insertSorted (x : Str) : List Str → List Str
  | [] => [x]
  | y :: ys => if lexLe x y then x :: y :: ys else y :: insertSorted x ys

/-- `std::sort` on the candidate vector (insertion sort: same output, since the
lexicographic order is total and antisymmetric on strings). -/
def sortRefs : List Str → List Str
  | [] => []
  | x :: xs => insertSorted x (sortRefs xs)

/-- Helper of `uniqueAdj`: drop elements equal to the previous kept one,
keep the first element of each new run. -/
def uniqueAdjAux (prev : Str) : List Str → List Str
  | [] => []
  | b :: rest => if b = prev then uniqueAdjAux prev rest else b :: uniqueAdjAux b rest

/-- `std::unique` + `erase`: keep the first element of every run of equal
adjacent elements. -/
def uniqueAdj : List Str → List Str
  | [] => []
  | a :: rest => a :: uniqueAdjAux a rest

/-- Longest common prefix of two strings. -/
def lcp : Str → Str → Str
  | a :: as, b :: bs => if a = b then a :: lcp as bs else []
  | _, _ => []

/-- Modelled from the spec: the prefix-trie implementation (`trie_create`,
`trie_add`, `trie_get_common_prefix`) is declared in `src/Trie.hpp` but its
definition is not among the repository sources.  Per the spec, `commonPrefix`
"returns the longest string that is a prefix of every string inserted so far;
returns the empty string if the trie is empty or the inserted strings share no
prefix".  A trie built by a sequence of insertions is embedded as the list of
inserted strings; the common prefix is the `lcp` fold over them. -/
def trieGetCommonPrefix (inserted : List Str) : Str :=
  match inserted with
  | [] => []
  | s :: rest => rest.foldl lcp s

/-- `FindCommonPrefix` from `src/Logic.cpp` lines 107–115: insert every
suitable ref into a fresh trie and read off the common prefix. -/
def FindCommonPrefix (suitableRefs : List Str) : Str :=
  trieGetCommonPrefix suitableRefs

/-- `Options` from the plugin configuration: strip-remote-name,
cycling direction, dialog-vs-cycle mode. -/
structure Options where
  stripRemoteName : Bool
  suggestNextSuffix : Bool
  showDialog : Bool

/-- The command-line buffer: editable user text plus the engine-controlled
suggested-suffix region. -/
structure CmdLine where
  userPrefix : Str
  suggestedSuffix : Str
deriving DecidableEq

/-- Modelled from the spec: command-line collaborator `getUserPrefix`. -/
def GetUserPrefix (c : CmdLine) : Str := c.userPrefix

/-- Modelled from the spec: command-line collaborator `replaceUserPrefix`. -/
def ReplaceUserPrefix (c : CmdLine) (s : Str) : CmdLine := { c with userPrefix := s }

/-- Modelled from the spec: command-line collaborator `getSuggestedSuffix`. -/
def GetSuggestedSuffix (c : CmdLine) : Str := c.suggestedSuffix

/-- Modelled from the spec: command-line collaborator `replaceSuggestedSuffix`. -/
def ReplaceSuggestedSuffix (c : CmdLine) (s : Str) : CmdLine :=
  { c with suggestedSuffix := s }

/-- `ObtainSuitableRefsBy` from `src/Logic.cpp` lines 57–70: enumerate the
repository's fully-qualified refs, classify each with `FilterReferences`, and
keep the ShortNames satisfying `isSuitableRef`, in enumeration order.  `none`
propagates the classifier's fatal assertion. -/
def ObtainSuitableRefsBy (options : Options) (repo : List Str)
    (isSuitableRef : Str → Bool) : Option (List Str) :=
  match repo with
  | [] => some []
  | ref :: rest => do
    let names ← FilterReferences options.stripRemoteName ref
    let tail ← ObtainSuitableRefsBy options rest isSuitableRef
    pure (names.filter isSuitableRef ++ tail)

/-- `ObtainSuitableRefsByStrictPrefix` from `src/Logic.cpp` lines 72–76. -/
def ObtainSuitableRefsByStrictPrefix (options : Options) (repo : List Str)
    (currentPrefix : Str) : Option (List Str) :=
  ObtainSuitableRefsBy options repo (fun refName => StartsWith refName currentPrefix)

/-- `ObtainSuitableRefsByPartialPrefixes` from `src/Logic.cpp` lines 101–105. -/
def ObtainSuitableRefsByPartialPrefixes (options : Options) (repo : List Str)
    (currentPrefix : Str) : Option (List Str) :=
  ObtainSuitableRefsBy options repo
    (fun refName => RefMayBeEncodedByPartialPrefix refName currentPrefix)

/-- The candidate-selection pass of `TransformCmdLine` (`src/Logic.cpp` lines
132–137): strict-prefix selection, with partial-prefix selection as the
fallback when the strict pass yields nothing. -/
def SelectCandidates (options : Options) (repo : List Str)
    (currentPrefix : Str) : Option (List Str) := do
  let strictRefs ← ObtainSuitableRefsByStrictPrefix options repo currentPrefix
  if strictRefs.isEmpty then
    ObtainSuitableRefsByPartialPrefixes options repo currentPrefix
  else pure strictRefs

/-- The decision `TransformCmdLine` takes on the selected candidate list (the
body of `src/Logic.cpp` lines 139–185, after the two selection passes): no
candidates — no change; sort, deduplicate, and read the trie's common prefix;
a longer common prefix is committed into the editable region; otherwise either
the dialog's non-empty selection replaces the editable text (clearing the
suggested suffix) or the cycler's next suffix is written into the
suggested-suffix region. -/
def TransformStep (options : Options) (dialog : List Str → Str → Str)
    (cmdLine : CmdLine) (suitableRefs : List Str) : CmdLine :=
  if suitableRefs.isEmpty then cmdLine
  else
    let refsList := uniqueAdj (sortRefs suitableRefs)
    let newPrefix := FindCommonPrefix refsList
    if newPrefix ≠ GetUserPrefix cmdLine then ReplaceUserPrefix cmdLine newPrefix
    else
      let currentSuffix := GetSuggestedSuffix cmdLine
      if options.showDialog then
        let selectedRef := dialog refsList (GetUserPrefix cmdLine ++ currentSuffix)
        if selectedRef.isEmpty then cmdLine
        else ReplaceUserPrefix (ReplaceSuggestedSuffix cmdLine []) selectedRef
      else
        ReplaceSuggestedSuffix cmdLine
          (ObtainNextSuggestedSuffix options.suggestNextSuffix
            (GetUserPrefix cmdLine) currentSuffix refsList)

/-- `TransformCmdLine` from `src/Logic.cpp` lines 128–186: select candidates
for the typed prefix, then apply the decision step.  `dialog` stands for the
`ShowRefsDialog` collaborator (given the candidates and the current full text,
returns the selection, empty = cancelled); `repo` is the backend's ref
enumeration; transcoding (`w2mb`/`mb2w`) is the identity in this embedding.
`none` propagates the classifier's fatal assertion. -/
def TransformCmdLine (options : Options) (dialog : List Str → Str → Str)
    (repo : List Str) (cmdLine : CmdLine) : Option CmdLine :=
  (SelectCandidates options repo (GetUserPrefix cmdLine)).map
    (TransformStep options dialog cmdLine)

/-- A dialog collaborator that always cancels (returns the empty string). -/
def emptyDialog : List Str → Str → Str := fun _ _ => []

theorem strchrAfter_eq_none (c : Char) (l : Str) (h : c ∉ l) :
    strchrAfter c l = none := by
  induction l with
  | nil => rfl
  | cons x xs ih =>
    simp only [List.mem_cons, not_or] at h
    simp only [strchrAfter, if_neg (Ne.symm h.1)]
    exact ih h.2

theorem strchrAfter_append_cons (c : Char) (l₁ l₂ : Str) (h : c ∉ l₁) :
    strchrAfter c (l₁ ++ c :: l₂) = some l₂ := by
  induction l₁ with
  | nil => simp [strchrAfter]
  | cons x xs ih =>
    simp only [List.mem_cons, not_or] at h
    simp only [List.cons_append, strchrAfter, if_neg (Ne.symm h.1)]
    exact ih h.2

theorem strchrAfter_isSome (c : Char) (l : Str) (h : c ∈ l) :
    (strchrAfter c l).isSome = true := by
  induction l with
  | nil => exact absurd h (List.not_mem_nil c)
  | cons x xs ih =>
    by_cases hx : x = c
    · simp [strchrAfter, hx]
    · rcases List.mem_cons.mp h with h1 | h2
      · exact absurd h1.symm hx
      · simpa [strchrAfter, hx] using ih h2

theorem lcp_prefix_left (a b : Str) : lcp a b <+: a := by
  induction a generalizing b with
  | nil => cases b <;> simp [lcp]
  | cons x xs ih =>
    cases b with
    | nil => simp [lcp]
    | cons y ys =>
      by_cases hxy : x = y
      · simpa [lcp, hxy] using ih ys
      · simp [lcp, hxy]

theorem lcp_prefix_right (a b : Str) : lcp a b <+: b := by
  induction a generalizing b with
  | nil => cases b <;> simp [lcp]
  | cons x xs ih =>
    cases b with
    | nil => simp [lcp]
    | cons y ys =>
      by_cases hxy : x = y
      · subst hxy; simpa [lcp] using ih ys
      · simp [lcp, hxy]

theorem prefix_lcp (c a b : Str) (h1 : c <+: a) (h2 : c <+: b) : c <+: lcp a b := by
  induction c generalizing a b with
  | nil => exact List.nil_prefix
  | cons x xs ih =>
    obtain ⟨ta, hta⟩ := h1
    obtain ⟨tb, htb⟩ := h2
    subst hta htb
    simpa [lcp] using ih (xs ++ ta) (xs ++ tb) (List.prefix_append xs ta)
      (List.prefix_append xs tb)

theorem foldl_lcp_prefix_acc (l : List Str) (acc : Str) : l.foldl lcp acc <+: acc := by
  induction l generalizing acc with
  | nil => exact List.prefix_rfl
  | cons s rest ih =>
    exact (ih (lcp acc s)).trans (lcp_prefix_left acc s)

theorem foldl_lcp_prefix_mem (l : List Str) (acc s : Str) (hs : s ∈ l) :
    l.foldl lcp acc <+: s := by
  induction l generalizing acc with
  | nil => exact absurd hs (List.not_mem_nil s)
  | cons t rest ih =>
    rcases List.mem_cons.mp hs with h1 | h2
    · subst h1
      exact (foldl_lcp_prefix_acc rest (lcp acc s)).trans (lcp_prefix_right acc s)
    · exact ih (lcp acc t) h2

theorem prefix_foldl_lcp (c : Str) (l : List Str) (acc : Str) (hacc : c <+: acc)
    (hl : ∀ s ∈ l, c <+: s) : c <+: l.foldl lcp acc := by
  induction l generalizing acc with
  | nil => exact hacc
  | cons t rest ih =>
    exact ih (lcp acc t) (prefix_lcp c acc t hacc (hl t (List.mem_cons_self t rest)))
      (fun s hs => hl s (List.mem_cons_of_mem t hs))

theorem trieGetCommonPrefix_prefix_mem (l : List Str) (s : Str) (hs : s ∈ l) :
    trieGetCommonPrefix l <+: s := by
  cases l with
  | nil => exact absurd hs (List.not_mem_nil s)
  | cons t rest =>
    rcases List.mem_cons.mp hs with h1 | h2
    · subst h1; exact foldl_lcp_prefix_acc rest s
    · exact foldl_lcp_prefix_mem rest t s h2

theorem prefix_trieGetCommonPrefix (c : Str) (l : List Str) (hne : l ≠ [])
    (hl : ∀ s ∈ l, c <+: s) : c <+: trieGetCommonPrefix l := by
  cases l with
  | nil => exact absurd rfl hne
  | cons t rest =>
    exact prefix_foldl_lcp c rest t (hl t (List.mem_cons_self t rest))
      (fun s hs => hl s (List.mem_cons_of_mem t hs))

/-- C1: `RefMayBeEncodedByPartialPrefix(ref, prefix)` returns true exactly when
the specified left-to-right cursor walk over the prefix succeeds (an exhausted
prefix succeeds; a punctuation or uppercase prefix character advances the ref
cursor to the next occurrence of that literal character at or after the
current cursor, failing if none, both cursors then advancing past it; any
other prefix character must equal the character at the ref cursor exactly);
and the nine fixed oracle cases hold. -/
theorem refMayBeEncodedByPartialPrefix_meets_spec_walk :
    (∀ (ref pfx : Str),
      RefMayBeEncodedByPartialPrefix ref pfx = specPartialWalk ref pfx 0)
    ∧ RefMayBeEncodedByPartialPrefix ("svn/trunk").toList ("s/t").toList = true
    ∧ RefMayBeEncodedByPartialPrefix ("foo/bar/qux").toList ("f/b").toList = true
    ∧ RefMayBeEncodedByPartialPrefix ("foo/bar/qux").toList ("f/b/q").toList = true
    ∧ RefMayBeEncodedByPartialPrefix ("foo/bar-qux").toList ("f/b-q").toList = true
    ∧ RefMayBeEncodedByPartialPrefix ("foo/barQux").toList ("f/bQ").toList = true
    ∧ RefMayBeEncodedByPartialPrefix ("foo/bar/qux").toList ("fo/baz/q").toList = false
    ∧ RefMayBeEncodedByPartialPrefix ("foo").toList ("f/b").toList = false
    ∧ RefMayBeEncodedByPartialPrefix ("foo/").toList ("f/b").toList = false
    ∧ RefMayBeEncodedByPartialPrefix ("foo/b").toList ("f/bar").toList = false := by
  refine ⟨fun ref pfx => ?_, by decide, by decide, by decide, by decide, by decide,
    by decide, by decide, by decide, by decide⟩
  rw [specPartialWalk_eq, List.drop_zero]

/-- C3 counterexample: on the lexicographically sorted candidate list
`[abcbar, abcfoo, abcxyz]` the cycler's empty-suffix cases do NOT give the
claimed values: forward from the empty suffix yields "bar" (the not-found
fallback selects index 0 = abcbar), not "foo", and backward yields "xyz"
(index N-1 = abcxyz), not "bar". -/
theorem cycler_sorted_oracle_cex :
    ObtainNextSuggestedSuffix true ("abc").toList ("").toList
      [("abcbar").toList, ("abcfoo").toList, ("abcxyz").toList] = ("bar").toList
    ∧ ("bar").toList ≠ ("foo").toList
    ∧ ObtainNextSuggestedSuffix false ("abc").toList ("").toList
      [("abcbar").toList, ("abcfoo").toList, ("abcxyz").toList] = ("xyz").toList
    ∧ ("xyz").toList ≠ ("bar").toList := by
  refine ⟨by decide, by decide, by decide, by decide⟩

/-- C3 amended: with the candidate list `{abcfoo, abcxyz, abcbar}` in its given
order (exactly as the unit test passes it, unsorted), the cycler satisfies the
six oracle cases: next(forward,"abc","xyz")="bar"; next(forward,"abc","bar")=
"foo"; next(forward,"abc","")="foo"; next(backward,"abc","xyz")="foo";
next(backward,"abc","foo")="bar"; next(backward,"abc","")="bar". -/
theorem cycler_test_order_oracle :
    ObtainNextSuggestedSuffix true ("abc").toList ("xyz").toList
      [("abcfoo").toList, ("abcxyz").toList, ("abcbar").toList] = ("bar").toList
    ∧ ObtainNextSuggestedSuffix true ("abc").toList ("bar").toList
      [("abcfoo").toList, ("abcxyz").toList, ("abcbar").toList] = ("foo").toList
    ∧ ObtainNextSuggestedSuffix true ("abc").toList ("").toList
      [("abcfoo").toList, ("abcxyz").toList, ("abcbar").toList] = ("foo").toList
    ∧ ObtainNextSuggestedSuffix false ("abc").toList ("xyz").toList
      [("abcfoo").toList, ("abcxyz").toList, ("abcbar").toList] = ("foo").toList
    ∧ ObtainNextSuggestedSuffix false ("abc").toList ("foo").toList
      [("abcfoo").toList, ("abcxyz").toList, ("abcbar").toList] = ("bar").toList
    ∧ ObtainNextSuggestedSuffix false ("abc").toList ("").toList
      [("abcfoo").toList, ("abcxyz").toList, ("abcbar").toList] = ("bar").toList := by
  refine ⟨by decide, by decide, by decide, by decide, by decide, by decide⟩

theorem dropPrefix_eq_drop (s pfx : Str) (h : pfx <+: s) :
    DropPrefix s pfx = s.drop pfx.length := by
  simp [DropPrefix, List.isPrefixOf_iff_prefix.mpr h]

theorem getD_mem_of_lt (l : List Str) (i : Nat) (h : i < l.length) :
    l.getD i [] ∈ l := by
  rw [List.getD_eq_getElem?_getD, List.getElem?_eq_getElem h]
  exact List.getElem_mem h

/-- The candidate list of the first cycler unit test
(`src/Logic.cpp` line 207), in the order the test passes it. -/
def testRefsA : List Str :=
  [("abcfoo").toList, ("abcxyz").toList, ("abcbar").toList]

/-- The candidate list of the second cycler unit test
(`src/Logic.cpp` line 216), which contains the prefix itself. -/
def testRefsB : List Str :=
  [("abc").toList, ("abcxyz").toList, ("abcbar").toList]

/-- C2: for a non-empty candidate list of N entries whose members all start
with `currentPrefix`, the cycler locates `currentPrefix + currentSuffix`
(first occurrence); if found at index i, the new index is (i+1) mod N cycling
forward and (i-1+N) mod N cycling backward; if not found, 0 forward and N-1
backward; the returned value is the candidate at the new index with
`currentPrefix` stripped from its front. -/
theorem obtainNextSuggestedSuffix_spec (forwardSearch : Bool)
    (currentPrefix currentSuffix : Str) (suitableRefs : List Str)
    (hne : suitableRefs ≠ [])
    (hpre : ∀ s ∈ suitableRefs, currentPrefix <+: s) :
    ObtainNextSuggestedSuffix forwardSearch currentPrefix currentSuffix suitableRefs =
      (suitableRefs.getD
        (match suitableRefs.findIdx? (fun s => s = currentPrefix ++ currentSuffix) with
          | some i =>
            if forwardSearch then (i + 1) % suitableRefs.length
            else (i + suitableRefs.length - 1) % suitableRefs.length
          | none => if forwardSearch then 0 else suitableRefs.length - 1) []).drop
        currentPrefix.length := by
  have hN : 0 < suitableRefs.length := List.length_pos.mpr hne
  unfold ObtainNextSuggestedSuffix nextSuggestedIdx
  cases hfi : suitableRefs.findIdx? (fun s => s = currentPrefix ++ currentSuffix) with
  | none =>
    simp only [hfi, Option.getD_none, if_pos rfl]
    have hidx : (if forwardSearch then 0 else suitableRefs.length - 1)
        < suitableRefs.length := by
      cases forwardSearch <;> simp [hN, Nat.sub_lt hN]
    exact dropPrefix_eq_drop _ _ (hpre _ (getD_mem_of_lt _ _ hidx))
  | some i =>
    have hi : i < suitableRefs.length :=
      (List.findIdx?_eq_some_iff_findIdx_eq.mp hfi).1
    simp only [hfi, Option.getD_some, if_neg (Nat.ne_of_lt hi)]
    cases forwardSearch with
    | true =>
      simp only [if_pos rfl, Nat.add_mod_right]
      exact dropPrefix_eq_drop _ _
        (hpre _ (getD_mem_of_lt _ _ (Nat.mod_lt _ hN)))
    | false =>
      simp only [Bool.false_eq_true, if_neg, not_false_iff]
      exact dropPrefix_eq_drop _ _
        (hpre _ (getD_mem_of_lt _ _ (Nat.mod_lt _ hN)))

/-- C2 witness: the cycler at the first unit test's inputs (forward from
suffix "xyz", found at index 1, new index 2, "abc" stripped). -/
theorem obtainNextSuggestedSuffix_spec_witness :
    ObtainNextSuggestedSuffix true (("abc").toList) (("xyz").toList) testRefsA =
      (testRefsA.getD 2 []).drop 3 :=
  (obtainNextSuggestedSuffix_spec true (("abc").toList) (("xyz").toList) testRefsA
    (by decide) (by decide)).trans (by decide)

/-- C10: when `currentPrefix` itself is a candidate, the empty suffix is found
(`currentPrefix ++ ""` is in the list) and the cycler steps by one from its
index rather than taking the not-found fallback; and whenever the cycling step
lands on the candidate equal to `currentPrefix`, the returned suffix is empty. -/
theorem cycler_member_step (forwardSearch : Bool) (currentPrefix : Str)
    (suitableRefs : List Str) :
    (currentPrefix ∈ suitableRefs →
      ∃ i, suitableRefs.findIdx? (fun s => s = currentPrefix ++ []) = some i ∧
        nextSuggestedIdx forwardSearch currentPrefix [] suitableRefs =
          if forwardSearch then (i + 1) % suitableRefs.length
          else (i + suitableRefs.length - 1) % suitableRefs.length)
    ∧ (∀ currentSuffix : Str,
        suitableRefs.getD
          (nextSuggestedIdx forwardSearch currentPrefix currentSuffix suitableRefs) []
          = currentPrefix →
        ObtainNextSuggestedSuffix forwardSearch currentPrefix currentSuffix
          suitableRefs = []) := by
  constructor
  · intro hmem
    have hsome : (suitableRefs.findIdx? (fun s => s = currentPrefix ++ [])).isSome := by
      rw [List.findIdx?_isSome, List.any_eq_true]
      exact ⟨currentPrefix, hmem, by simp⟩
    obtain ⟨i, hfi⟩ := Option.isSome_iff_exists.mp hsome
    have hi : i < suitableRefs.length :=
      (List.findIdx?_eq_some_iff_findIdx_eq.mp hfi).1
    refine ⟨i, hfi, ?_⟩
    unfold nextSuggestedIdx
    simp only [hfi, Option.getD_some, if_neg (Nat.ne_of_lt hi)]
    cases forwardSearch <;> simp [Nat.add_mod_right]
  · intro currentSuffix hland
    unfold ObtainNextSuggestedSuffix
    rw [hland, dropPrefix_eq_drop _ _ List.prefix_rfl, List.drop_length]

/-- C10 witness: on the second unit test's list (which contains "abc" itself),
forward cycling from the empty suffix steps from the found index 0, and
backward cycling from suffix "xyz" lands on "abc" and returns the empty
suffix. -/
theorem cycler_member_step_witness :
    (∃ i, testRefsB.findIdx? (fun s => s = ("abc").toList ++ []) = some i ∧
        nextSuggestedIdx true (("abc").toList) [] testRefsB =
          (i + 1) % testRefsB.length)
    ∧ ObtainNextSuggestedSuffix false (("abc").toList) (("xyz").toList) testRefsB
        = [] :=
  ⟨(cycler_member_step true (("abc").toList) testRefsB).1 (by decide),
   (cycler_member_step false (("abc").toList) testRefsB).2 (("xyz").toList)
     (by decide)⟩

theorem headsPrefix_chars :
    headsPrefix = ['r', 'e', 'f', 's', '/', 'h', 'e', 'a', 'd', 's', '/'] := rfl

theorem tagsPrefix_chars :
    tagsPrefix = ['r', 'e', 'f', 's', '/', 't', 'a', 'g', 's', '/'] := rfl

theorem remotesPrefix_chars :
    remotesPrefix = ['r', 'e', 'f', 's', '/', 'r', 'e', 'm', 'o', 't', 'e', 's', '/'] := rfl

/-- C5: classifying `refs/heads/X` or `refs/tags/X` emits exactly the short
name X; classifying `refs/remotes/R/B` (R the remote name, containing no `/`)
emits exactly [R/B] with strip-remote-name off and exactly [R/B, B] with it
on; a reference carrying none of the three recognized prefixes emits zero
short names. -/
theorem filterReferences_classification (stripRemoteName : Bool) (X R B : Str)
    (hR : '/' ∉ R) :
    FilterReferences stripRemoteName (headsPrefix ++ X) = some [X]
    ∧ FilterReferences stripRemoteName (tagsPrefix ++ X) = some [X]
    ∧ FilterReferences false (remotesPrefix ++ (R ++ '/' :: B))
        = some [R ++ '/' :: B]
    ∧ FilterReferences true (remotesPrefix ++ (R ++ '/' :: B))
        = some [R ++ '/' :: B, B]
    ∧ (∀ ref : Str, StartsWith ref headsPrefix = false →
        StartsWith ref tagsPrefix = false →
        StartsWith ref remotesPrefix = false →
        FilterReferences stripRemoteName ref = some []) := by
  refine ⟨?_, ?_, ?_, ?_, ?_⟩
  · simp [FilterReferences, StartsWith, headsPrefix_chars, List.isPrefixOf, List.drop]
  · simp [FilterReferences, StartsWith, headsPrefix_chars, tagsPrefix_chars,
      List.isPrefixOf, List.drop]
  · simp [FilterReferences, StartsWith, headsPrefix_chars, tagsPrefix_chars,
      remotesPrefix_chars, List.isPrefixOf, List.drop]
  · simp [FilterReferences, StartsWith, headsPrefix_chars, tagsPrefix_chars,
      remotesPrefix_chars, List.isPrefixOf, List.drop,
      strchrAfter_append_cons '/' R B hR]
  · intro ref h1 h2 h3
    simp [FilterReferences, h1, h2, h3]

/-- C5 witness: the classification at concrete references
`refs/heads/master`, `refs/tags/v1`, `refs/remotes/origin/main` and the
unrecognized `refs/stash`. -/
theorem filterReferences_classification_witness :
    FilterReferences true (headsPrefix ++ ("master").toList) = some [("master").toList]
    ∧ FilterReferences true (tagsPrefix ++ ("v1").toList) = some [("v1").toList]
    ∧ FilterReferences false
        (remotesPrefix ++ (("origin").toList ++ '/' :: ("main").toList))
        = some [("origin").toList ++ '/' :: ("main").toList]
    ∧ FilterReferences true
        (remotesPrefix ++ (("origin").toList ++ '/' :: ("main").toList))
        = some [("origin").toList ++ '/' :: ("main").toList, ("main").toList]
    ∧ FilterReferences true (("refs/stash").toList) = some [] := by
  have h := filterReferences_classification true (("master").toList)
    (("origin").toList) (("main").toList) (by decide)
  have h2 := filterReferences_classification true (("v1").toList)
    (("origin").toList) (("main").toList) (by decide)
  exact ⟨h.1, h2.2.1, h.2.2.1, h.2.2.2.1,
    h.2.2.2.2 (("refs/stash").toList) (by decide) (by decide) (by decide)⟩

/-- C6: a `refs/remotes/` reference with no `/` after that prefix aborts
classification via the fatal assertion (embedded as `none`) when
stripRemoteName is on; and under the precondition that every `refs/remotes/`
reference has a `/` after the prefix, classification never hits the
assertion (always returns `some`). -/
theorem filterReferences_assertion (R : Str) (hR : '/' ∉ R) :
    FilterReferences true (remotesPrefix ++ R) = none
    ∧ (∀ (stripRemoteName : Bool) (ref : Str),
        (StartsWith ref remotesPrefix = true →
          '/' ∈ ref.drop remotesPrefix.length) →
        (FilterReferences stripRemoteName ref).isSome = true) := by
  constructor
  · simp [FilterReferences, StartsWith, headsPrefix_chars, tagsPrefix_chars,
      remotesPrefix_chars, List.isPrefixOf, List.drop, strchrAfter_eq_none '/' R hR]
  · intro stripRemoteName ref hwf
    unfold FilterReferences
    by_cases h1 : StartsWith ref headsPrefix
    · simp [h1]
    · by_cases h2 : StartsWith ref tagsPrefix
      · simp [h1, h2]
      · by_cases h3 : StartsWith ref remotesPrefix
        · have hsl := strchrAfter_isSome '/' (ref.drop remotesPrefix.length) (hwf h3)
          obtain ⟨afterSlash, hval⟩ := Option.isSome_iff_exists.mp hsl
          cases stripRemoteName <;> simp [h1, h2, h3, hval]
        · simp [h1, h2, h3]

/-- C6 witness: `refs/remotes/origin` (no slash after the remote prefix)
aborts with strip-remote-name on, while the well-formed repository
`[refs/heads/master, refs/remotes/origin/main]` never aborts. -/
theorem filterReferences_assertion_witness :
    FilterReferences true (remotesPrefix ++ ("origin").toList) = none
    ∧ (FilterReferences true (("refs/remotes/origin/main").toList)).isSome = true :=
  ⟨(filterReferences_assertion (("origin").toList) (by decide)).1,
   (filterReferences_assertion (("origin").toList) (by decide)).2 true
     (("refs/remotes/origin/main").toList) (by decide)⟩

/-- C4: the common prefix of a trie holding a finite list of inserted strings
is a prefix of every member; for a non-empty insertion list no strictly longer
string is a prefix of every member (any common prefix is at most as long); a
singleton insertion gives back that string; the empty trie gives the empty
string; and the result depends only on the set of inserted strings, hence is
insertion-order independent and unaffected by duplicate insertions. -/
theorem trieGetCommonPrefix_spec :
    (∀ (l : List Str) (s : Str), s ∈ l → trieGetCommonPrefix l <+: s)
    ∧ (∀ (l : List Str) (c : Str), l ≠ [] → (∀ s ∈ l, c <+: s) →
        c.length ≤ (trieGetCommonPrefix l).length)
    ∧ (∀ s : Str, trieGetCommonPrefix [s] = s)
    ∧ trieGetCommonPrefix [] = []
    ∧ (∀ l₁ l₂ : List Str, (∀ s : Str, s ∈ l₁ ↔ s ∈ l₂) →
        trieGetCommonPrefix l₁ = trieGetCommonPrefix l₂) := by
  refine ⟨trieGetCommonPrefix_prefix_mem, ?_, fun s => rfl, rfl, ?_⟩
  · intro l c hne hl
    exact (prefix_trieGetCommonPrefix c l hne hl).length_le
  · intro l₁ l₂ hiff
    cases hl₁ : l₁ with
    | nil =>
      cases hl₂ : l₂ with
      | nil => rfl
      | cons t₂ r₂ =>
        have : t₂ ∈ l₁ := (hiff t₂).mpr (hl₂ ▸ List.mem_cons_self t₂ r₂)
        rw [hl₁] at this
        exact absurd this (List.not_mem_nil t₂)
    | cons t₁ r₁ =>
      cases hl₂ : l₂ with
      | nil =>
        have : t₁ ∈ l₂ := (hiff t₁).mp (hl₁ ▸ List.mem_cons_self t₁ r₁)
        rw [hl₂] at this
        exact absurd this (List.not_mem_nil t₁)
      | cons t₂ r₂ =>
        rw [← hl₁, ← hl₂]
        have h12 : trieGetCommonPrefix l₁ <+: trieGetCommonPrefix l₂ :=
          prefix_trieGetCommonPrefix _ _ (by rw [hl₂]; exact List.cons_ne_nil t₂ r₂)
            (fun s hs => trieGetCommonPrefix_prefix_mem l₁ s ((hiff s).mpr hs))
        have h21 : trieGetCommonPrefix l₂ <+: trieGetCommonPrefix l₁ :=
          prefix_trieGetCommonPrefix _ _ (by rw [hl₁]; exact List.cons_ne_nil t₁ r₁)
            (fun s hs => trieGetCommonPrefix_prefix_mem l₂ s ((hiff s).mp hs))
        exact h12.eq_of_length_le h21.length_le

/-- C4 witness: the trie over {main, master} (common prefix "ma"), a
singleton, the empty trie, and a permuted list with a duplicate insertion. -/
theorem trieGetCommonPrefix_spec_witness :
    trieGetCommonPrefix [("main").toList, ("master").toList] <+: ("main").toList
    ∧ (("ma").toList).length
        ≤ (trieGetCommonPrefix [("main").toList, ("master").toList]).length
    ∧ trieGetCommonPrefix [("solo").toList] = ("solo").toList
    ∧ trieGetCommonPrefix ([] : List Str) = []
    ∧ trieGetCommonPrefix [("main").toList, ("master").toList, ("main").toList]
        = trieGetCommonPrefix [("master").toList, ("main").toList] :=
  ⟨trieGetCommonPrefix_spec.1 _ (("main").toList) (by decide),
   trieGetCommonPrefix_spec.2.1 _ (("ma").toList) (by decide) (by decide),
   trieGetCommonPrefix_spec.2.2.1 _,
   trieGetCommonPrefix_spec.2.2.2.1,
   trieGetCommonPrefix_spec.2.2.2.2 _ _ (by
     intro s
     simp only [List.mem_cons, List.not_mem_nil, or_false]
     tauto)⟩

/-- C7: the command line is left completely unchanged both when the two
selection strategies yield zero candidates, and when dialog mode is active,
the prefix cannot be extended, and the dialog returns the empty string. -/
theorem transformCmdLine_no_change :
    (∀ (options : Options) (dialog : List Str → Str → Str) (repo : List Str)
        (cmdLine : CmdLine),
      ObtainSuitableRefsByStrictPrefix options repo cmdLine.userPrefix = some []
      → ObtainSuitableRefsByPartialPrefixes options repo cmdLine.userPrefix = some []
      → TransformCmdLine options dialog repo cmdLine = some cmdLine)
    ∧ (∀ (options : Options) (dialog : List Str → Str → Str) (repo : List Str)
        (cmdLine : CmdLine) (refs : List Str),
      options.showDialog = true
      → SelectCandidates options repo cmdLine.userPrefix = some refs
      → refs ≠ []
      → FindCommonPrefix (uniqueAdj (sortRefs refs)) = cmdLine.userPrefix
      → dialog (uniqueAdj (sortRefs refs))
          (cmdLine.userPrefix ++ cmdLine.suggestedSuffix) = []
      → TransformCmdLine options dialog repo cmdLine = some cmdLine) := by
  constructor
  · intro options dialog repo cmdLine hstrict hpartial
    have hsel : SelectCandidates options repo cmdLine.userPrefix = some [] := by
      unfold SelectCandidates
      rw [hstrict]
      simpa using hpartial
    unfold TransformCmdLine GetUserPrefix
    rw [hsel]
    simp [TransformStep]
  · intro options dialog repo cmdLine refs hdlg hsel hne hcommon hcancel
    unfold TransformCmdLine GetUserPrefix
    rw [hsel]
    simp [TransformStep, GetUserPrefix, GetSuggestedSuffix, hne, hcommon, hdlg,
      hcancel]

/-- C7 witness: an empty repository gives no candidates and no change; with
refs {ma, mb} fully matching the typed prefix "m" and a cancelling dialog, the
command line is also unchanged. -/
theorem transformCmdLine_no_change_witness :
    TransformCmdLine ⟨false, true, false⟩ emptyDialog []
      ⟨("m").toList, []⟩ = some ⟨("m").toList, []⟩
    ∧ TransformCmdLine ⟨false, true, true⟩ emptyDialog
      [("refs/heads/m").toList] ⟨("m").toList, []⟩ = some ⟨("m").toList, []⟩ :=
  ⟨transformCmdLine_no_change.1 ⟨false, true, false⟩ emptyDialog []
      ⟨("m").toList, []⟩ (by decide) (by decide),
   transformCmdLine_no_change.2 ⟨false, true, true⟩ emptyDialog
      [("refs/heads/m").toList] ⟨("m").toList, []⟩ [("m").toList]
      (by decide) (by decide) (by decide) (by decide) (by decide)⟩

/-- C9: a successful invocation never rewrites both command-line regions at
once without the user's say: it leaves the editable prefix unchanged, or
leaves the suggested suffix unchanged, or (only in dialog mode) sets the
editable text to exactly the string the dialog returned while clearing the
suggested suffix. -/
theorem transformCmdLine_split_invariant (options : Options)
    (dialog : List Str → Str → Str) (repo : List Str) (cmdLine cmd2 : CmdLine)
    (h : TransformCmdLine options dialog repo cmdLine = some cmd2) :
    cmd2.userPrefix = cmdLine.userPrefix
    ∨ cmd2.suggestedSuffix = cmdLine.suggestedSuffix
    ∨ (options.showDialog = true ∧ ∃ cands,
        cmd2 = ⟨dialog cands (cmdLine.userPrefix ++ cmdLine.suggestedSuffix), []⟩) := by
  unfold TransformCmdLine GetUserPrefix at h
  cases hsel : SelectCandidates options repo cmdLine.userPrefix with
  | none => rw [hsel] at h; exact absurd h (by simp)
  | some refs =>
    rw [hsel] at h
    simp only [Option.map_some', Option.some_inj] at h
    subst h
    unfold TransformStep GetUserPrefix GetSuggestedSuffix
    by_cases h1 : refs.isEmpty
    · simp [h1]
    · simp only [h1, Bool.false_eq_true, if_false]
      by_cases h2 : FindCommonPrefix (uniqueAdj (sortRefs refs)) ≠ cmdLine.userPrefix
      · simp [h2, ReplaceUserPrefix]
      · simp only [ite_not, if_pos (not_not.mp h2)]
        by_cases h3 : options.showDialog
        · simp only [h3, if_true]
          by_cases h4 : (dialog (uniqueAdj (sortRefs refs))
              (cmdLine.userPrefix ++ cmdLine.suggestedSuffix)).isEmpty
          · simp [h4]
          · simp only [h4, Bool.false_eq_true, if_false]
            refine Or.inr (Or.inr ⟨by trivial, uniqueAdj (sortRefs refs), ?_⟩)
            rfl
        · simp only [h3, if_false]
          exact Or.inl rfl

/-- C9 witness: committing the prefix "master" over "m" leaves the suggested
suffix region unchanged. -/
theorem transformCmdLine_split_invariant_witness :
    (⟨("master").toList, ("s").toList⟩ : CmdLine).userPrefix
        = (⟨("m").toList, ("s").toList⟩ : CmdLine).userPrefix
    ∨ (⟨("master").toList, ("s").toList⟩ : CmdLine).suggestedSuffix
        = (⟨("m").toList, ("s").toList⟩ : CmdLine).suggestedSuffix
    ∨ ((⟨false, true, false⟩ : Options).showDialog = true ∧ ∃ cands : List Str,
        (⟨("master").toList, ("s").toList⟩ : CmdLine)
          = ⟨emptyDialog cands ((("m").toList) ++ (("s").toList)), []⟩) :=
  transformCmdLine_split_invariant ⟨false, true, false⟩ emptyDialog
    [("refs/heads/master").toList] ⟨("m").toList, ("s").toList⟩
    ⟨("master").toList, ("s").toList⟩ (by decide)

theorem filter_fun_true (l : List Str) : l.filter (fun _ => true) = l := by
  induction l with
  | nil => rfl
  | cons x xs ih => simp [List.filter, ih]

theorem obtainSuitableRefsBy_eq_filter (options : Options) (repo : List Str)
    (p : Str → Bool) :
    ObtainSuitableRefsBy options repo p =
      (ObtainSuitableRefsBy options repo (fun _ => true)).map (List.filter p) := by
  induction repo with
  | nil => rfl
  | cons ref rest ih =>
    unfold ObtainSuitableRefsBy
    cases FilterReferences options.stripRemoteName ref with
    | none => rfl
    | some names =>
      rw [ih]
      cases ObtainSuitableRefsBy options rest (fun _ => true) with
      | none => rfl
      | some all =>
        show some (names.filter p ++ all.filter p)
          = some ((names.filter (fun _ => true) ++ all).filter p)
        rw [filter_fun_true, List.filter_append]

theorem strictPrefix_eq_filter (options : Options) (repo : List Str) (P : Str) :
    ObtainSuitableRefsByStrictPrefix options repo P =
      (ObtainSuitableRefsBy options repo (fun _ => true)).map
        (List.filter (fun n => StartsWith n P)) :=
  obtainSuitableRefsBy_eq_filter options repo _

/-- What a successful candidate selection can be: the filter of all emitted
short names under the strict predicate, or (when that is empty) under the
partial-prefix predicate. -/
theorem selectCandidates_shape (options : Options) (repo : List Str) (P : Str)
    (refs : List Str)
    (hsel : SelectCandidates options repo P = some refs) :
    ∃ all, ObtainSuitableRefsBy options repo (fun _ => true) = some all
      ∧ (refs = all.filter (fun n => StartsWith n P)
         ∨ refs = all.filter (fun n => RefMayBeEncodedByPartialPrefix n P)) := by
  unfold SelectCandidates ObtainSuitableRefsByStrictPrefix
    ObtainSuitableRefsByPartialPrefixes at hsel
  rw [obtainSuitableRefsBy_eq_filter options repo (fun n => StartsWith n P),
    obtainSuitableRefsBy_eq_filter options repo
      (fun n => RefMayBeEncodedByPartialPrefix n P)] at hsel
  cases hall : ObtainSuitableRefsBy options repo (fun _ => true) with
  | none => rw [hall] at hsel; exact absurd hsel (by simp)
  | some all =>
    rw [hall] at hsel
    refine ⟨all, rfl, ?_⟩
    by_cases hemp : (all.filter (fun n => StartsWith n P)).isEmpty
    · right
      have h2 : some (all.filter (fun n => RefMayBeEncodedByPartialPrefix n P))
          = some refs := by
        rw [← hsel]
        show some (all.filter (fun n => RefMayBeEncodedByPartialPrefix n P))
          = if (all.filter (fun n => StartsWith n P)).isEmpty = true
            then some (all.filter (fun n => RefMayBeEncodedByPartialPrefix n P))
            else pure (all.filter (fun n => StartsWith n P))
        rw [if_pos hemp]
      exact (Option.some_inj.mp h2).symm
    · left
      have h2 : some (all.filter (fun n => StartsWith n P)) = some refs := by
        rw [← hsel]
        show some (all.filter (fun n => StartsWith n P))
          = if (all.filter (fun n => StartsWith n P)).isEmpty = true
            then some (all.filter (fun n => RefMayBeEncodedByPartialPrefix n P))
            else pure (all.filter (fun n => StartsWith n P))
        rw [if_neg hemp]
        rfl
      exact (Option.some_inj.mp h2).symm

theorem mem_insertSorted (x y : Str) (l : List Str) :
    y ∈ insertSorted x l ↔ y = x ∨ y ∈ l := by
  induction l with
  | nil => simp [insertSorted]
  | cons z zs ih =>
    by_cases h : lexLe x z
    · simp [insertSorted, h, List.mem_cons]
    · simp only [insertSorted, h, Bool.false_eq_true, if_false, List.mem_cons, ih]
      tauto

theorem mem_sortRefs (y : Str) (l : List Str) : y ∈ sortRefs l ↔ y ∈ l := by
  induction l with
  | nil => simp [sortRefs]
  | cons x xs ih => simp [sortRefs, mem_insertSorted, ih, List.mem_cons]

theorem mem_of_mem_uniqueAdjAux (x : Str) (l : List Str) :
    ∀ prev : Str, x ∈ uniqueAdjAux prev l → x ∈ l := by
  induction l with
  | nil => intro prev h; simp [uniqueAdjAux] at h
  | cons b rest ih =>
    intro prev h
    by_cases hb : b = prev
    · simp only [uniqueAdjAux, hb, if_pos rfl] at h
      exact List.mem_cons_of_mem b (ih prev (hb ▸ h))
    · simp only [uniqueAdjAux, if_neg hb, List.mem_cons] at h
      rcases h with h1 | h2
      · exact List.mem_cons.mpr (Or.inl h1)
      · exact List.mem_cons_of_mem b (ih b h2)

theorem mem_uniqueAdjAux_of_mem (x : Str) (l : List Str) :
    ∀ prev : Str, x ∈ l → x ∈ uniqueAdjAux prev l ∨ x = prev := by
  induction l with
  | nil => intro prev h; exact absurd h (List.not_mem_nil x)
  | cons b rest ih =>
    intro prev hx
    rcases List.mem_cons.mp hx with h1 | h2
    · subst h1
      by_cases h : x = prev
      · exact Or.inr h
      · exact Or.inl (by simp [uniqueAdjAux, h])
    · by_cases hb : b = prev
      · rcases ih prev h2 with ha | hc
        · exact Or.inl (by simpa [uniqueAdjAux, hb] using ha)
        · exact Or.inr hc
      · rcases ih b h2 with ha | hc
        · exact Or.inl (by simp [uniqueAdjAux, hb, List.mem_cons, ha])
        · exact Or.inl (by simp [uniqueAdjAux, hb, List.mem_cons, hc])

theorem mem_uniqueAdj (x : Str) (l : List Str) : x ∈ uniqueAdj l ↔ x ∈ l := by
  cases l with
  | nil => simp [uniqueAdj]
  | cons a rest =>
    simp only [uniqueAdj, List.mem_cons]
    constructor
    · rintro (h1 | h2)
      · exact Or.inl h1
      · exact Or.inr (mem_of_mem_uniqueAdjAux x rest a h2)
    · rintro (h1 | h2)
      · exact Or.inl h1
      · rcases mem_uniqueAdjAux_of_mem x rest a h2 with ha | hb
        · exact Or.inr ha
        · exact Or.inl hb

theorem uniqueAdj_sortRefs_ne_nil (l : List Str) (h : l ≠ []) :
    uniqueAdj (sortRefs l) ≠ [] := by
  obtain ⟨x, hx⟩ := List.exists_mem_of_ne_nil l h
  exact List.ne_nil_of_mem ((mem_uniqueAdj x _).mpr ((mem_sortRefs x l).mpr hx))

/-- Committing the common prefix Q of the selected candidates makes the next
strict pass select a non-empty list whose common prefix is again Q. -/
theorem filter_startsWith_common (all refs : List Str) (p : Str → Bool)
    (hrefs : refs = all.filter p) (hne : refs ≠ []) :
    all.filter
        (fun n => StartsWith n (FindCommonPrefix (uniqueAdj (sortRefs refs)))) ≠ []
    ∧ FindCommonPrefix (uniqueAdj (sortRefs (all.filter (fun n =>
          StartsWith n (FindCommonPrefix (uniqueAdj (sortRefs refs)))))))
        = FindCommonPrefix (uniqueAdj (sortRefs refs)) := by
  set Q := FindCommonPrefix (uniqueAdj (sortRefs refs)) with hQ
  set refs2 := all.filter (fun n => StartsWith n Q) with hrefs2
  have hmemL : ∀ s ∈ refs, s ∈ uniqueAdj (sortRefs refs) := fun s hs =>
    (mem_uniqueAdj s _).mpr ((mem_sortRefs s refs).mpr hs)
  have hQs : ∀ s ∈ refs, Q <+: s := fun s hs =>
    trieGetCommonPrefix_prefix_mem _ s (hmemL s hs)
  have hsub : ∀ s ∈ refs, s ∈ refs2 := by
    intro s hs
    have hsall : s ∈ all := (List.mem_filter.mp (hrefs ▸ hs)).1
    exact List.mem_filter.mpr
      ⟨hsall, List.isPrefixOf_iff_prefix.mpr (hQs s hs)⟩
  have hne2 : refs2 ≠ [] := by
    obtain ⟨x, hx⟩ := List.exists_mem_of_ne_nil refs hne
    exact List.ne_nil_of_mem (hsub x hx)
  refine ⟨hne2, ?_⟩
  have hL2ne : uniqueAdj (sortRefs refs2) ≠ [] := uniqueAdj_sortRefs_ne_nil refs2 hne2
  have hLne : uniqueAdj (sortRefs refs) ≠ [] := uniqueAdj_sortRefs_ne_nil refs hne
  have h1 : Q <+: FindCommonPrefix (uniqueAdj (sortRefs refs2)) := by
    refine prefix_trieGetCommonPrefix Q _ hL2ne ?_
    intro s hs
    have hs2 : s ∈ refs2 := (mem_sortRefs s refs2).mp ((mem_uniqueAdj s _).mp hs)
    exact List.isPrefixOf_iff_prefix.mp (List.mem_filter.mp hs2).2
  have h2 : FindCommonPrefix (uniqueAdj (sortRefs refs2)) <+: Q := by
    refine prefix_trieGetCommonPrefix _ _ hLne ?_
    intro s hs
    have hsrefs : s ∈ refs := (mem_sortRefs s refs).mp ((mem_uniqueAdj s _).mp hs)
    exact trieGetCommonPrefix_prefix_mem _ s
      ((mem_uniqueAdj s _).mpr ((mem_sortRefs s refs2).mpr (hsub s hsrefs)))
  exact h2.eq_of_length_le h1.length_le

/-- C8 counterexample: with refs {refs/heads/main, refs/heads/master}, typed
prefix "m" and empty suffix, the first run commits the common prefix "ma"
(≠ "m") and replaces the editable prefix; the second run, with no intervening
edits, reaches the cycling branch and writes suggested suffix "in" — the
command line changes again, so running twice is not idempotent as claimed. -/
theorem transform_twice_cex :
    TransformCmdLine ⟨false, true, false⟩ emptyDialog
      [("refs/heads/main").toList, ("refs/heads/master").toList]
      ⟨("m").toList, []⟩ = some ⟨("ma").toList, []⟩
    ∧ ("ma").toList ≠ ("m").toList
    ∧ TransformCmdLine ⟨false, true, false⟩ emptyDialog
      [("refs/heads/main").toList, ("refs/heads/master").toList]
      ⟨("ma").toList, []⟩ = some ⟨("ma").toList, ("in").toList⟩
    ∧ (⟨("ma").toList, ("in").toList⟩ : CmdLine) ≠ ⟨("ma").toList, []⟩ :=
  ⟨by decide, by decide, by decide, by decide⟩

/-- C8 amended: in cycling mode (dialog off), when the first run commits a new
common prefix Q ≠ currentPrefix, the second run with no intervening edits
recomputes the same newPrefix — its strict pass selects a non-empty candidate
list whose common prefix is again Q — and makes no further change to the
editable prefix: it can only rewrite the suggested-suffix region (with the
cycler's suffix). -/
theorem transform_commit_prefix_stable (options : Options)
    (dialog : List Str → Str → Str) (repo : List Str) (cmdLine : CmdLine)
    (refs : List Str)
    (hdlg : options.showDialog = false)
    (hsel : SelectCandidates options repo cmdLine.userPrefix = some refs)
    (hne : refs ≠ [])
    (hnew : FindCommonPrefix (uniqueAdj (sortRefs refs)) ≠ cmdLine.userPrefix) :
    TransformCmdLine options dialog repo cmdLine
      = some (ReplaceUserPrefix cmdLine (FindCommonPrefix (uniqueAdj (sortRefs refs))))
    ∧ ∃ refs2 : List Str,
        ObtainSuitableRefsByStrictPrefix options repo
            (FindCommonPrefix (uniqueAdj (sortRefs refs))) = some refs2
        ∧ refs2 ≠ []
        ∧ FindCommonPrefix (uniqueAdj (sortRefs refs2))
            = FindCommonPrefix (uniqueAdj (sortRefs refs))
        ∧ ∃ cmd2 : CmdLine,
            TransformCmdLine options dialog repo
                (ReplaceUserPrefix cmdLine (FindCommonPrefix (uniqueAdj (sortRefs refs))))
              = some cmd2
            ∧ cmd2.userPrefix = FindCommonPrefix (uniqueAdj (sortRefs refs))
            ∧ cmd2.suggestedSuffix
                = ObtainNextSuggestedSuffix options.suggestNextSuffix
                    (FindCommonPrefix (uniqueAdj (sortRefs refs)))
                    cmdLine.suggestedSuffix (uniqueAdj (sortRefs refs2)) := by
  obtain ⟨all, hall, hp⟩ := selectCandidates_shape options repo cmdLine.userPrefix refs hsel
  have hshape : ∃ p : Str → Bool, refs = all.filter p := by
    rcases hp with h | h
    · exact ⟨_, h⟩
    · exact ⟨_, h⟩
  obtain ⟨p, hrefs⟩ := hshape
  obtain ⟨hne2, hQ2⟩ := filter_startsWith_common all refs p hrefs hne
  constructor
  · unfold TransformCmdLine GetUserPrefix
    rw [hsel]
    simp only [Option.map_some', Option.some_inj]
    unfold TransformStep GetUserPrefix
    rw [if_neg (by simpa using hne), if_pos (by simpa using hnew)]
  · refine ⟨all.filter (fun n =>
      StartsWith n (FindCommonPrefix (uniqueAdj (sortRefs refs)))), ?_, hne2, hQ2, ?_⟩
    · rw [strictPrefix_eq_filter, hall]
      rfl
    · have hstrict2 : ObtainSuitableRefsByStrictPrefix options repo
          (FindCommonPrefix (uniqueAdj (sortRefs refs)))
          = some (all.filter (fun n =>
              StartsWith n (FindCommonPrefix (uniqueAdj (sortRefs refs))))) := by
        rw [strictPrefix_eq_filter, hall]
        rfl
      have hsel2 : SelectCandidates options repo
          (FindCommonPrefix (uniqueAdj (sortRefs refs)))
          = some (all.filter (fun n =>
              StartsWith n (FindCommonPrefix (uniqueAdj (sortRefs refs))))) := by
        unfold SelectCandidates
        rw [hstrict2]
        show (if (all.filter (fun n =>
            StartsWith n (FindCommonPrefix (uniqueAdj (sortRefs refs))))).isEmpty = true
          then ObtainSuitableRefsByPartialPrefixes options repo
            (FindCommonPrefix (uniqueAdj (sortRefs refs)))
          else pure (all.filter (fun n =>
            StartsWith n (FindCommonPrefix (uniqueAdj (sortRefs refs)))))) = _
        rw [if_neg (by simpa using hne2)]
        rfl
      refine ⟨ReplaceSuggestedSuffix
          (ReplaceUserPrefix cmdLine (FindCommonPrefix (uniqueAdj (sortRefs refs))))
          (ObtainNextSuggestedSuffix options.suggestNextSuffix
            (FindCommonPrefix (uniqueAdj (sortRefs refs)))
            cmdLine.suggestedSuffix
            (uniqueAdj (sortRefs (all.filter (fun n =>
              StartsWith n (FindCommonPrefix (uniqueAdj (sortRefs refs)))))))),
        ?_, rfl, rfl⟩
      unfold TransformCmdLine GetUserPrefix ReplaceUserPrefix
      rw [hsel2]
      simp only [Option.map_some', Option.some_inj]
      unfold TransformStep GetUserPrefix GetSuggestedSuffix ReplaceUserPrefix
        ReplaceSuggestedSuffix
      rw [if_neg (by simpa using hne2)]
      simp [hQ2, hdlg]

/-- C8 amended witness: the concrete two-ref repository where the first run
commits "ma" over "m" and the second run only writes the suggested suffix. -/
theorem transform_commit_prefix_stable_witness :
    TransformCmdLine ⟨false, true, false⟩ emptyDialog
      [("refs/heads/main").toList, ("refs/heads/master").toList]
      ⟨("m").toList, []⟩
      = some (ReplaceUserPrefix ⟨("m").toList, []⟩
          (FindCommonPrefix (uniqueAdj (sortRefs
            [("main").toList, ("master").toList]))))
    ∧ ∃ refs2 : List Str,
        ObtainSuitableRefsByStrictPrefix ⟨false, true, false⟩
            [("refs/heads/main").toList, ("refs/heads/master").toList]
            (FindCommonPrefix (uniqueAdj (sortRefs
              [("main").toList, ("master").toList]))) = some refs2
        ∧ refs2 ≠ []
        ∧ FindCommonPrefix (uniqueAdj (sortRefs refs2))
            = FindCommonPrefix (uniqueAdj (sortRefs
                [("main").toList, ("master").toList]))
        ∧ ∃ cmd2 : CmdLine,
            TransformCmdLine ⟨false, true, false⟩ emptyDialog
                [("refs/heads/main").toList, ("refs/heads/master").toList]
                (ReplaceUserPrefix ⟨("m").toList, []⟩
                  (FindCommonPrefix (uniqueAdj (sortRefs
                    [("main").toList, ("master").toList]))))
              = some cmd2
            ∧ cmd2.userPrefix = FindCommonPrefix (uniqueAdj (sortRefs
                [("main").toList, ("master").toList]))
            ∧ cmd2.suggestedSuffix
                = ObtainNextSuggestedSuffix true
                    (FindCommonPrefix (uniqueAdj (sortRefs
                      [("main").toList, ("master").toList])))
                    [] (uniqueAdj (sortRefs refs2)) :=
  transform_commit_prefix_stable ⟨false, true, false⟩ emptyDialog
    [("refs/heads/main").toList, ("refs/heads/master").toList]
    ⟨("m").toList, []⟩ [("main").toList, ("master").toList]
    (by decide) (by decide) (by decide) (by decide)

end GitAC
